import Mathlib

set_option maxHeartbeats 1000000

/-!
Verification of the OCR segmentation core.

The definitions below are shallow embeddings of the Python services in
`backend/services/line_segmentation.py` and
`backend/services/character_grouping.py`: projection-based line
segmentation with gap merging, connected-component glyph extraction,
similarity grouping and group merging, reading-order sorting, and simple
feature extraction.  Images are modelled as rectangular grids of natural
number intensities (0 to 255); Python dictionaries keyed by group id are
modelled as association lists in insertion order, matching Python dict
iteration order.  Calls into external libraries (`sklearn` clustering,
`cv2.resize`) are modelled at their interface: the clustering label
vector is an explicit argument, and resizing is a sampling function
that fails on an empty source, matching OpenCV's assertion, with the
exact interpolation irrelevant to the stated properties.
-/

namespace Ocr

/-- Grayscale image: a list of rows of intensity samples. -/
abbrev Gray := List (List Nat)

/-- Binarisation `cv2.threshold(img, 127, 255, cv2.THRESH_BINARY_INV)`:
a pixel becomes 255 (foreground ink) when its intensity is at most 127,
else 0. -/
def binarizeInv (img : Gray) : Gray :=
  img.map fun row => row.map fun v => if 127 < v then 0 else 255

/-- Row projection `np.sum(binary, axis=1)`: per-row sum of the
binarised image. -/
def hProjection (img : Gray) : List Nat :=
  (binarizeInv img).map fun row => row.foldl (· + ·) 0

/-- Scan loop of `LineSegmenter.segment_lines`: walk the projection
keeping an in-line flag; a zero-to-positive transition opens a candidate
band, a positive-to-zero transition closes it at the current row and
keeps it when its height reaches `minH`; a band still open when the
rows run out is closed at the total row count and kept unconditionally. -/
def scanRows (minH : Nat) : List Nat → Nat → Bool → Nat → List (Nat × Nat)
  | [], i, inLine, lineStart => if inLine then [(lineStart, i)] else []
  | v :: rest, i, inLine, lineStart =>
    if 0 < v ∧ inLine = false then
      scanRows minH rest (i + 1) true i
    else if v = 0 ∧ inLine = true then
      (if minH ≤ i - lineStart then [(lineStart, i)] else []) ++
        scanRows minH rest (i + 1) false lineStart
    else
      scanRows minH rest (i + 1) inLine lineStart

/-- Merge loop of `LineSegmenter._merge_close_lines`: the running last
band absorbs the next band when the gap between them is at most
`maxGap`, else it is emitted and the next band becomes the running one. -/
def mergeGo (maxGap : Nat) : (Nat × Nat) → List (Nat × Nat) → List (Nat × Nat)
  | last, [] => [last]
  | (a, b), (c, d) :: rest =>
    if (c : Int) - (b : Int) ≤ (maxGap : Int) then mergeGo maxGap (a, d) rest
    else (a, b) :: mergeGo maxGap (c, d) rest

/-- Embedding of `LineSegmenter._merge_close_lines`. -/
def merge_close_lines (maxGap : Nat) : List (Nat × Nat) → List (Nat × Nat)
  | [] => []
  | first :: rest => mergeGo maxGap first rest

/-- Output record of `LineSegmenter.segment_lines` (the cropped line
image, a pure slice of the input, is not repeated here). -/
structure LineBand where
  line_order : Nat
  y_start : Nat
  y_end : Nat
  deriving DecidableEq

/-- Conversion of an index-and-bounds pair into a `LineBand`, matching
the final `enumerate(merged_lines)` loop of `segment_lines`. -/
def toBand (p : Nat × (Nat × Nat)) : LineBand :=
  { line_order := p.1, y_start := p.2.1, y_end := p.2.2 }

/-- Embedding of `LineSegmenter.segment_lines`: binarise, project rows,
scan for candidate bands, merge close bands, and number the result. -/
def segment_lines (img : Gray) (minH maxGap : Nat) : List LineBand :=
  ((merge_close_lines maxGap (scanRows minH (hProjection img) 0 false 0)).enum).map toBand

/-- Bounding box of a glyph region, in pixels. -/
structure BBox where
  x : Nat
  y : Nat
  w : Nat
  h : Nat
  deriving DecidableEq

/-- Glyph record produced by `CharacterSegmenter.segment_characters`
and consumed by grouping and sorting (the cropped image and the float
centroid, which none of the verified operations inspect, are not
modelled). -/
structure Glyph where
  id : Nat
  bbox : BBox
  area : Nat
  groupId : Int
  deriving DecidableEq

/-- Pixels of one image row that survive binarisation, tagged with
their row index: the row-r slice of the foreground mask. -/
def rowPixels (r : Nat) (row : List Nat) : List (Nat × Nat) :=
  (row.enum.filter fun cv => decide (cv.2 ≤ 127)).map fun cv => (r, cv.1)

/-- All foreground pixels of the binarised image, as (row, column)
coordinates. -/
def foregroundPixels (img : Gray) : List (Nat × Nat) :=
  img.enum.flatMap fun rrow => rowPixels rrow.1 rrow.2

/-- Eight-neighbourhood adjacency of pixel coordinates, the
`connectivity=8` notion used by `cv2.connectedComponentsWithStats`. -/
def adj8 (p q : Nat × Nat) : Bool :=
  decide (p.1 - q.1 ≤ 1 ∧ q.1 - p.1 ≤ 1 ∧ p.2 - q.2 ≤ 1 ∧ q.2 - p.2 ≤ 1)

/-- One step of incremental connected-component labelling: the new
pixel is united with every existing component it touches. -/
def addPixel (comps : List (List (Nat × Nat))) (p : Nat × Nat) : List (List (Nat × Nat)) :=
  (p :: (comps.filter fun c => c.any (adj8 p)).flatten) ::
    comps.filter fun c => !(c.any (adj8 p))

/-- Connected components of a pixel set under 8-adjacency, the
labelling computed by `cv2.connectedComponentsWithStats(binary,
connectivity=8)`. -/
def components (pixels : List (Nat × Nat)) : List (List (Nat × Nat)) :=
  pixels.foldl addPixel []

/-- Region statistics record: the per-component data `segment_characters`
reads from the `stats` array of `cv2.connectedComponentsWithStats`. -/
structure Region where
  id : Nat
  x : Nat
  y : Nat
  w : Nat
  h : Nat
  area : Nat
  deriving DecidableEq

/-- Statistics of one connected component: bounding box from the
coordinate extremes, area as the pixel count, exactly the `CC_STAT_LEFT`,
`CC_STAT_TOP`, `CC_STAT_WIDTH`, `CC_STAT_HEIGHT`, `CC_STAT_AREA` fields. -/
def compStats : List (Nat × Nat) → Option Region
  | [] => none
  | q :: rest =>
    some
      { id := 0
        x := rest.foldl (fun a p => min a p.2) q.2
        y := rest.foldl (fun a p => min a p.1) q.1
        w := rest.foldl (fun a p => max a p.2) q.2 + 1 - rest.foldl (fun a p => min a p.2) q.2
        h := rest.foldl (fun a p => max a p.1) q.1 + 1 - rest.foldl (fun a p => min a p.1) q.1
        area := (q :: rest).length }

/-- Embedding of `CharacterSegmenter.segment_characters`: binarise,
label connected components, filter the components whose area lies in
`[minArea, maxArea]`, and number the survivors with consecutive ids. -/
def segment_characters (img : Gray) (minArea maxArea : Nat) : List Region :=
  ((((components (foregroundPixels img)).filterMap compStats).filter
      fun reg => decide (minArea ≤ reg.area ∧ reg.area ≤ maxArea)).enum).map
    fun p => { p.2 with id := p.1 }

/-- Insertion of an element after every element it does not strictly
precede: the inner step of a stable sort. -/
def insertLe (le : α → α → Bool) (x : α) : List α → List α
  | [] => [x]
  | y :: ys => if le y x then y :: insertLe le x ys else x :: y :: ys

/-- Stable sort by a boolean comparison, modelling Python's stable
`sorted`: elements are taken left to right and each is placed after all
already-placed elements less than or equal to it. -/
def stableSortBy (le : α → α → Bool) (l : List α) : List α :=
  l.foldl (fun acc x => insertLe le x acc) []

/-- Lexicographic order on the sort keys used by
`sort_characters_reading_order`. -/
def lexLe (p q : Nat × Int) : Prop :=
  p.1 < q.1 ∨ (p.1 = q.1 ∧ p.2 ≤ q.2)

instance (p q : Nat × Int) : Decidable (lexLe p q) := by
  unfold lexLe; infer_instance

/-- Sort key of `CharacterSegmenter.sort_characters_reading_order`:
`(c['bbox']['y'], -c['bbox']['x'] if rtl else c['bbox']['x'])`. -/
def readKey (rtl : Bool) (c : Glyph) : Nat × Int :=
  (c.bbox.y, if rtl then -(c.bbox.x : Int) else (c.bbox.x : Int))

/-- Embedding of `CharacterSegmenter.sort_characters_reading_order`:
stable sort by top coordinate, then by horizontal position, negated for
right-to-left scripts. -/
def sort_characters_reading_order (chars : List Glyph) (rtl : Bool) : List Glyph :=
  if chars = [] then []
  else stableSortBy (fun a b => decide (lexLe (readKey rtl a) (readKey rtl b))) chars

/-- Embedding of `CharacterSegmenter.cluster_characters_kmeans`.  The
`sklearn` KMeans `fit_predict` call is an external collaborator; its
output, one integer label per character, is taken as the `labels`
argument, and each character receives its label as `group_id`. -/
def cluster_characters_kmeans (chars : List Glyph) (labels : List Int) : List Glyph :=
  if chars = [] then [] else chars.zipWith (fun c l => { c with groupId := l }) labels

/-- Embedding of `CharacterSegmenter.cluster_characters_dbscan`.  The
`sklearn` DBSCAN `fit_predict` call on normalised features is an
external collaborator; its output label vector (with -1 marking
outliers) is taken as the `labels` argument. -/
def cluster_characters_dbscan (chars : List Glyph) (labels : List Int) : List Glyph :=
  if chars = [] then [] else chars.zipWith (fun c l => { c with groupId := l }) labels

/-- Appending a character to the member list of its group id, creating
the group at the end on first sight: the dict-building loop of
`group_characters_by_similarity`. -/
def insertGroup : List (Int × List Glyph) → Int → Glyph → List (Int × List Glyph)
  | [], gid, c => [(gid, [c])]
  | (k, v) :: rest, gid, c =>
    if k = gid then (k, v ++ [c]) :: rest else (k, v) :: insertGroup rest gid c

/-- Grouping the clustered characters by their `group_id`, preserving
dict insertion order. -/
def buildGroups (clustered : List Glyph) : List (Int × List Glyph) :=
  clustered.foldl (fun gs c => insertGroup gs c.groupId c) []

/-- Sorting the groups by member count, largest first, with Python's
stable `sorted(..., key=lambda x: len(x[1]), reverse=True)`. -/
def sortGroupsBySize (gs : List (Int × List Glyph)) : List (Int × List Glyph) :=
  stableSortBy (fun a b => decide (b.2.length ≤ a.2.length)) gs

/-- Embedding of `CharacterSegmenter.group_characters_by_similarity`:
dispatch on the method name, group the labelled characters by group id,
sort groups by size; an unknown method name raises `ValueError`. -/
def group_characters_by_similarity (chars : List Glyph) (method : String)
    (labels : List Int) : Except String (List (Int × List Glyph)) :=
  if method = "kmeans" then
    .ok (sortGroupsBySize (buildGroups (cluster_characters_kmeans chars labels)))
  else if method = "dbscan" then
    .ok (sortGroupsBySize (buildGroups (cluster_characters_dbscan chars labels)))
  else
    .error ("Unknown clustering method: " ++ method)

/-- Lookup of a group id in the groups mapping. -/
def findVal (gs : List (Int × List Glyph)) (k : Int) : Option (List Glyph) :=
  (gs.find? fun p => decide (p.1 = k)).map Prod.snd

/-- Replacement of the member list stored under a key. -/
def setVal (gs : List (Int × List Glyph)) (k : Int) (v : List Glyph) :
    List (Int × List Glyph) :=
  gs.map fun p => if p.1 = k then (k, v) else p

/-- Deletion of a key from the groups mapping. -/
def removeKey (gs : List (Int × List Glyph)) (k : Int) : List (Int × List Glyph) :=
  gs.filter fun p => decide (p.1 ≠ k)

/-- Embedding of `CharacterSegmenter.merge_character_groups`: when both
ids are present, the members of `id2` are appended to `id1`, `id2` is
deleted, and every member of the merged group has its `group_id`
rewritten by re-reading the mapping at `id1`; a failed re-read (which
happens exactly when `id1 = id2`, so that the deletion removed the
merged group as well) is Python's `KeyError`, modelled as `none`.
When either id is absent the mapping is returned unchanged. -/
def merge_character_groups (gs : List (Int × List Glyph)) (id1 id2 : Int) :
    Option (List (Int × List Glyph)) :=
  match findVal gs id1, findVal gs id2 with
  | some v1, some v2 =>
    match findVal (removeKey (setVal gs id1 (v1 ++ v2)) id2) id1 with
    | some v =>
      some (setVal (removeKey (setVal gs id1 (v1 ++ v2)) id2) id1
        (v.map fun c => { c with groupId := id1 }))
    | none => none
  | _, _ => some gs

/-- Aspect ratio `w / h if h > 0 else 0` computed by
`extract_simple_features`, with the division guarded against zero
height. -/
def aspect_ratio_of (img : Gray) : ℚ :=
  if 0 < img.length then ((img.headD []).length : ℚ) / (img.length : ℚ) else 0

/-- Ink density `np.sum(binary > 0) / (h * w) if h * w > 0 else 0`
computed by `extract_simple_features`, with the division guarded
against a zero pixel count. -/
def density_of (img : Gray) : ℚ :=
  if 0 < img.length * (img.headD []).length then
    (((binarizeInv img).map fun row => row.countP fun v => decide (0 < v)).sum : ℚ) /
      ((img.length * (img.headD []).length : Nat) : ℚ)
  else 0

/-- Nearest-neighbour sampling to a fixed output shape, modelling the
external `cv2.resize` call.  OpenCV asserts `!ssize.empty()`, so a
source image with zero height or zero width raises `cv2.error`,
modelled as `none`; on a non-empty source the sampled grid is
returned.  The exact interpolation is irrelevant to the stated
properties; the output shape and the error path are what matters. -/
def resizeNN (img : Gray) (nh nw : Nat) : Option Gray :=
  if img.length = 0 ∨ (img.headD []).length = 0 then none
  else
    some ((List.range nh).map fun i =>
      (List.range nw).map fun j =>
        (img.getD (i * img.length / nh) []).getD (j * (img.headD []).length / nw) 0)

/-- Embedding of `CharacterSegmenter.extract_simple_features`: the
guarded aspect ratio and ink density, then the flattened 16 by 16
resampled grid normalised to the unit interval.  The `cv2.resize` call
raises on a degenerate image, so a feature vector is returned only for
images with positive height and width. -/
def extract_simple_features (img : Gray) : Option (List ℚ) :=
  match resizeNN img 16 16 with
  | none => none
  | some resized =>
    some (aspect_ratio_of img :: density_of img ::
      resized.flatten.map fun (v : Nat) => (v : ℚ) / 255)

/-- Band lists whose entries start no earlier than `lo`, have positive
extent, and follow one another without going backwards. -/
def ChainFrom (lo : Nat) : List (Nat × Nat) → Prop
  | [] => True
  | (s, e) :: rest => lo ≤ s ∧ s < e ∧ ChainFrom e rest

/-- Band lists whose entries start no earlier than `lo`, have positive
extent, and are separated by at least one blank row. -/
def SChainFrom (lo : Nat) : List (Nat × Nat) → Prop
  | [] => True
  | (s, e) :: rest => lo ≤ s ∧ s < e ∧ SChainFrom (e + 1) rest

/-- Bands whose height meets the minimum. -/
def bandGood (minH : Nat) (p : Nat × Nat) : Prop :=
  minH ≤ p.2 - p.1

/-- Band lists all of whose entries, except possibly the final one,
meet the minimum height. -/
def goodExceptLast (minH : Nat) : List (Nat × Nat) → Prop
  | [] => True
  | [_] => True
  | p :: q :: t => bandGood minH p ∧ goodExceptLast minH (q :: t)

theorem chainFrom_mono {lo lo' : Nat} {l : List (Nat × Nat)} (h : lo' ≤ lo)
    (hc : ChainFrom lo l) : ChainFrom lo' l := by
  cases l with
  | nil => trivial
  | cons p rest =>
    obtain ⟨s, e⟩ := p
    simp only [ChainFrom] at hc ⊢
    exact ⟨le_trans h hc.1, hc.2⟩

theorem schainFrom_mono {lo lo' : Nat} {l : List (Nat × Nat)} (h : lo' ≤ lo)
    (hc : SChainFrom lo l) : SChainFrom lo' l := by
  cases l with
  | nil => trivial
  | cons p rest =>
    obtain ⟨s, e⟩ := p
    simp only [SChainFrom] at hc ⊢
    exact ⟨le_trans h hc.1, hc.2⟩

theorem scan_chain (minH : Nat) :
    ∀ (proj : List Nat) (i : Nat) (b : Bool) (s : Nat), (b = true → s < i) →
      ChainFrom (if b then s else i) (scanRows minH proj i b s) := by
  intro proj
  induction proj with
  | nil =>
    intro i b s hb
    cases b with
    | false => simp [scanRows, ChainFrom]
    | true =>
      simp only [scanRows, if_pos rfl, if_true]
      exact ⟨le_refl s, hb rfl, trivial⟩
  | cons v rest ih =>
    intro i b s hb
    by_cases hv : 0 < v
    · have hv0 : ¬ v = 0 := Nat.pos_iff_ne_zero.mp hv
      cases b with
      | false =>
        have h2 := ih (i + 1) true i (fun _ => Nat.lt_succ_self i)
        simp only [if_pos rfl] at h2 ⊢
        simpa [scanRows, hv] using h2
      | true =>
        have h2 := ih (i + 1) true s (fun _ => lt_trans (hb rfl) (Nat.lt_succ_self i))
        simp only [if_pos rfl] at h2 ⊢
        simpa [scanRows, hv, hv0] using h2
    · have hv0 : v = 0 := by omega
      subst hv0
      cases b with
      | false =>
        have h2 := ih (i + 1) false s (fun h => by cases h)
        simp only [Bool.false_eq_true, if_false] at h2
        have h3 := chainFrom_mono (Nat.le_succ i) h2
        simpa [scanRows] using h3
      | true =>
        have hsi := hb rfl
        have h2 := ih (i + 1) false s (fun h => by cases h)
        simp only [Bool.false_eq_true, if_false] at h2
        by_cases hk : minH ≤ i - s
        · simp only [scanRows, hk, if_true, Bool.true_eq_false, Bool.false_eq_true, if_false,
            and_true, and_false, lt_irrefl, false_and, List.singleton_append]
          simp only [ChainFrom]
          exact ⟨le_refl s, hsi, chainFrom_mono (Nat.le_succ i) h2⟩
        · simp only [scanRows, hk, if_true, Bool.true_eq_false, Bool.false_eq_true, if_false,
            and_true, and_false, lt_irrefl, false_and, List.nil_append]
          exact chainFrom_mono (by omega) h2

theorem mergeGo_schain (maxGap : Nat) :
    ∀ (rest : List (Nat × Nat)) (s e : Nat), s < e → ChainFrom e rest →
      SChainFrom s (mergeGo maxGap (s, e) rest) := by
  intro rest
  induction rest with
  | nil =>
    intro s e hse _
    simp only [mergeGo, SChainFrom]
    exact ⟨le_refl s, hse, trivial⟩
  | cons p t ih =>
    intro s e hse hc
    obtain ⟨c, d⟩ := p
    simp only [ChainFrom] at hc
    obtain ⟨hec, hcd, ht⟩ := hc
    by_cases hm : (c : Int) - (e : Int) ≤ (maxGap : Int)
    · simp only [mergeGo, if_pos hm]
      exact ih s d (by omega) ht
    · simp only [mergeGo, if_neg hm]
      have hlt : e < c := by omega
      simp only [SChainFrom]
      exact ⟨le_refl s, hse, schainFrom_mono (by omega) (ih c d hcd ht)⟩

theorem merge_schain (maxGap lo : Nat) (l : List (Nat × Nat)) (hc : ChainFrom lo l) :
    SChainFrom lo (merge_close_lines maxGap l) := by
  cases l with
  | nil => trivial
  | cons p rest =>
    obtain ⟨s, e⟩ := p
    simp only [ChainFrom] at hc
    exact schainFrom_mono hc.1 (mergeGo_schain maxGap rest s e hc.2.1 hc.2.2)

theorem schain_fst_bound {lo : Nat} {l : List (Nat × Nat)} (hc : SChainFrom lo l) :
    ∀ p ∈ l, lo ≤ p.1 := by
  induction l generalizing lo with
  | nil => intro p hp; cases hp
  | cons q t ih =>
    obtain ⟨s, e⟩ := q
    simp only [SChainFrom] at hc
    intro p hp
    rcases List.mem_cons.mp hp with h | h
    · subst h; exact hc.1
    · exact le_trans (by omega) (ih hc.2.2 p h)

theorem schain_lt {lo : Nat} {l : List (Nat × Nat)} (hc : SChainFrom lo l) :
    ∀ p ∈ l, p.1 < p.2 := by
  induction l generalizing lo with
  | nil => intro p hp; cases hp
  | cons q t ih =>
    obtain ⟨s, e⟩ := q
    simp only [SChainFrom] at hc
    intro p hp
    rcases List.mem_cons.mp hp with h | h
    · subst h; exact hc.2.1
    · exact ih hc.2.2 p h

theorem schain_pairwise {lo : Nat} {l : List (Nat × Nat)} (hc : SChainFrom lo l) :
    l.Pairwise fun a b => a.2 < b.1 := by
  induction l generalizing lo with
  | nil => exact List.Pairwise.nil
  | cons q t ih =>
    obtain ⟨s, e⟩ := q
    simp only [SChainFrom] at hc
    refine List.Pairwise.cons ?_ (ih hc.2.2)
    intro b hb
    exact lt_of_lt_of_le (Nat.lt_succ_self e) (schain_fst_bound hc.2.2 b hb)

theorem mem_enumFrom_snd : ∀ (l : List α) (n : Nat) (x : Nat × α),
    x ∈ List.enumFrom n l → x.2 ∈ l := by
  intro l
  induction l with
  | nil => intro n x hx; cases hx
  | cons a t ih =>
    intro n x hx
    simp only [List.enumFrom_cons] at hx
    rcases List.mem_cons.mp hx with h | h
    · subst h; exact List.mem_cons_self a t
    · exact List.mem_cons_of_mem a (ih (n + 1) x h)

theorem enumFrom_pairwise {R : α → α → Prop} : ∀ (l : List α) (n : Nat),
    l.Pairwise R → (List.enumFrom n l).Pairwise fun a b => R a.2 b.2 := by
  intro l
  induction l with
  | nil => intro n _; exact List.Pairwise.nil
  | cons a t ih =>
    intro n hp
    rcases List.pairwise_cons.mp hp with ⟨ha, ht⟩
    simp only [List.enumFrom_cons]
    refine List.Pairwise.cons ?_ (ih (n + 1) ht)
    intro b hb
    exact ha b.2 (mem_enumFrom_snd t (n + 1) b hb)

/-- Claim C1: for every input image and parameters, `segment_lines`
returns bands with `y_start < y_end`, pairwise ordered so that each
later band starts strictly after an earlier band ends, and with
`line_order` equal to the band's index in the returned list. -/
theorem segment_lines_bands_invariant (img : Gray) (minH maxGap : Nat) :
    ((segment_lines img minH maxGap).all fun b => decide (b.y_start < b.y_end)) = true
    ∧ (segment_lines img minH maxGap).Pairwise (fun a b => a.y_end < b.y_start)
    ∧ (segment_lines img minH maxGap).map LineBand.line_order
        = List.range (segment_lines img minH maxGap).length := by
  have hchain := scan_chain minH (hProjection img) 0 false 0 (fun h => by cases h)
  simp only [Bool.false_eq_true, if_false] at hchain
  have hs : SChainFrom 0
      (merge_close_lines maxGap (scanRows minH (hProjection img) 0 false 0)) :=
    merge_schain maxGap 0 _ hchain
  refine ⟨?_, ?_, ?_⟩
  · rw [List.all_eq_true]
    intro b hb
    simp only [segment_lines, List.mem_map] at hb
    obtain ⟨p, hp, hpb⟩ := hb
    have h2 := schain_lt hs p.2 (mem_enumFrom_snd _ 0 p hp)
    subst hpb
    simpa [toBand] using h2
  · simp only [segment_lines]
    rw [List.pairwise_map]
    exact enumFrom_pairwise _ 0 (schain_pairwise hs)
  · simp only [segment_lines, List.map_map, List.length_map]
    have : (LineBand.line_order ∘ toBand) =
        (Prod.fst : Nat × (Nat × Nat) → Nat) := by
      funext p; rfl
    rw [this, List.enum_map_fst, List.enum_length]

theorem goodExceptLast_cons {minH : Nat} {p : Nat × Nat} {l : List (Nat × Nat)}
    (hp : bandGood minH p) (hl : goodExceptLast minH l) :
    goodExceptLast minH (p :: l) := by
  cases l with
  | nil => trivial
  | cons q t => exact ⟨hp, hl⟩

theorem scan_goodExceptLast (minH : Nat) :
    ∀ (proj : List Nat) (i : Nat) (b : Bool) (s : Nat),
      goodExceptLast minH (scanRows minH proj i b s) := by
  intro proj
  induction proj with
  | nil =>
    intro i b s
    cases b with
    | false => simp [scanRows, goodExceptLast]
    | true => simp [scanRows, goodExceptLast]
  | cons v rest ih =>
    intro i b s
    by_cases hv : 0 < v
    · have hv0 : ¬ v = 0 := by omega
      cases b with
      | false => simpa [scanRows, hv] using ih (i + 1) true i
      | true => simpa [scanRows, hv, hv0] using ih (i + 1) true s
    · have hv0 : v = 0 := by omega
      subst hv0
      cases b with
      | false => simpa [scanRows] using ih (i + 1) false s
      | true =>
        by_cases hk : minH ≤ i - s
        · simp only [scanRows, hk, if_true, Bool.true_eq_false, Bool.false_eq_true, if_false,
            and_true, and_false, lt_irrefl, false_and, List.singleton_append]
          exact goodExceptLast_cons hk (ih (i + 1) false s)
        · simp only [scanRows, hk, if_true, Bool.true_eq_false, Bool.false_eq_true, if_false,
            and_true, and_false, lt_irrefl, false_and, List.nil_append]
          exact ih (i + 1) false s

theorem scan_allGood (minH : Nat) :
    ∀ (proj : List Nat) (i : Nat) (b : Bool) (s : Nat),
      (proj.getLast? = some 0 ∨ (proj = [] ∧ b = false)) →
      ∀ p ∈ scanRows minH proj i b s, bandGood minH p := by
  intro proj
  induction proj with
  | nil =>
    intro i b s hend p hp
    rcases hend with h | h
    · cases h
    · rw [h.2] at hp
      simp [scanRows] at hp
  | cons v rest ih =>
    intro i b s hend p hp
    have hend' : rest.getLast? = some 0 ∨ (rest = [] ∧ v = 0) := by
      rcases hend with h | h
      · cases rest with
        | nil => right; exact ⟨rfl, by simpa using h⟩
        | cons w t => left; simpa [List.getLast?_cons_cons] using h
      · cases h.1
    by_cases hv : 0 < v
    · have hv0 : ¬ v = 0 := by omega
      have hrest : rest.getLast? = some 0 := by
        rcases hend' with h | h
        · exact h
        · exact absurd h.2 hv0
      cases b with
      | false =>
        simp only [scanRows, hv, Bool.false_eq_true, and_true, if_true, and_false,
          if_false] at hp
        exact ih (i + 1) true i (Or.inl hrest) p hp
      | true =>
        simp only [scanRows, hv, hv0, Bool.true_eq_false, and_false, if_false, and_true,
          false_and] at hp
        exact ih (i + 1) true s (Or.inl hrest) p hp
    · have hv0 : v = 0 := by omega
      subst hv0
      have hnext : rest.getLast? = some 0 ∨ (rest = [] ∧ false = false) := by
        rcases hend' with h | h
        · exact Or.inl h
        · exact Or.inr ⟨h.1, rfl⟩
      cases b with
      | false =>
        simp only [scanRows, lt_irrefl, false_and, if_false, Bool.false_eq_true, and_false] at hp
        exact ih (i + 1) false s hnext p hp
      | true =>
        by_cases hk : minH ≤ i - s
        · simp only [scanRows, hk, if_true, Bool.true_eq_false, Bool.false_eq_true, if_false,
            and_true, and_false, lt_irrefl, false_and, List.singleton_append] at hp
          rcases List.mem_cons.mp hp with h | h
          · subst h; exact hk
          · exact ih (i + 1) false s hnext p h
        · simp only [scanRows, hk, if_true, Bool.true_eq_false, Bool.false_eq_true, if_false,
            and_true, and_false, lt_irrefl, false_and, List.nil_append] at hp
          exact ih (i + 1) false s hnext p hp

theorem mergeGo_allGood (maxGap minH : Nat) :
    ∀ (rest : List (Nat × Nat)) (s e : Nat), bandGood minH (s, e) →
      (∀ p ∈ rest, bandGood minH p) → ChainFrom e rest →
      ∀ p ∈ mergeGo maxGap (s, e) rest, bandGood minH p := by
  intro rest
  induction rest with
  | nil =>
    intro s e hg _ _ p hp
    simp only [mergeGo, List.mem_singleton] at hp
    subst hp; exact hg
  | cons q t ih =>
    intro s e hg hrest hc p hp
    obtain ⟨c, d⟩ := q
    simp only [ChainFrom] at hc
    obtain ⟨hec, hcd, ht⟩ := hc
    by_cases hm : (c : Int) - (e : Int) ≤ (maxGap : Int)
    · simp only [mergeGo, if_pos hm] at hp
      have hg' : bandGood minH (s, d) := by
        simp only [bandGood] at hg ⊢
        omega
      exact ih s d hg' (fun q hq => hrest q (List.mem_cons_of_mem _ hq)) ht p hp
    · simp only [mergeGo, if_neg hm] at hp
      rcases List.mem_cons.mp hp with h | h
      · subst h; exact hg
      · exact ih c d (hrest (c, d) (List.mem_cons_self _ _))
          (fun q hq => hrest q (List.mem_cons_of_mem _ hq)) ht p h

theorem mergeGo_goodExceptLast (maxGap minH : Nat) :
    ∀ (rest : List (Nat × Nat)) (s e : Nat),
      goodExceptLast minH ((s, e) :: rest) → ChainFrom e rest →
      goodExceptLast minH (mergeGo maxGap (s, e) rest) := by
  intro rest
  induction rest with
  | nil => intro s e _ _; simp [mergeGo, goodExceptLast]
  | cons q t ih =>
    intro s e hgel hc
    obtain ⟨c, d⟩ := q
    simp only [ChainFrom] at hc
    obtain ⟨hec, hcd, ht⟩ := hc
    simp only [goodExceptLast] at hgel
    obtain ⟨hse, hrest⟩ := hgel
    by_cases hm : (c : Int) - (e : Int) ≤ (maxGap : Int)
    · simp only [mergeGo, if_pos hm]
      refine ih s d ?_ ht
      cases t with
      | nil => trivial
      | cons r u =>
        simp only [goodExceptLast] at hrest ⊢
        refine ⟨?_, hrest.2⟩
        simp only [bandGood] at hse ⊢
        omega
    · simp only [mergeGo, if_neg hm]
      have hgo := ih c d hrest ht
      cases ho : mergeGo maxGap (c, d) t with
      | nil => trivial
      | cons r u =>
        rw [ho] at hgo
        exact ⟨hse, hgo⟩

theorem merge_allGood (maxGap minH : Nat) (l : List (Nat × Nat)) (lo : Nat)
    (hall : ∀ p ∈ l, bandGood minH p) (hc : ChainFrom lo l) :
    ∀ p ∈ merge_close_lines maxGap l, bandGood minH p := by
  cases l with
  | nil => intro p hp; cases hp
  | cons q rest =>
    obtain ⟨s, e⟩ := q
    simp only [ChainFrom] at hc
    exact mergeGo_allGood maxGap minH rest s e (hall (s, e) (List.mem_cons_self _ _))
      (fun p hp => hall p (List.mem_cons_of_mem _ hp)) hc.2.2

theorem merge_goodExceptLast (maxGap minH : Nat) (l : List (Nat × Nat)) (lo : Nat)
    (hgel : goodExceptLast minH l) (hc : ChainFrom lo l) :
    goodExceptLast minH (merge_close_lines maxGap l) := by
  cases l with
  | nil => trivial
  | cons q rest =>
    obtain ⟨s, e⟩ := q
    simp only [ChainFrom] at hc
    exact mergeGo_goodExceptLast maxGap minH rest s e hgel hc.2.2

theorem bands_dropLast_all (minH : Nat) :
    ∀ (l : List (Nat × Nat)) (n : Nat), goodExceptLast minH l →
      ((((List.enumFrom n l).map toBand).dropLast).all
        fun b => decide (minH ≤ b.y_end - b.y_start)) = true := by
  intro l
  induction l with
  | nil => intro n _; simp
  | cons p t ih =>
    intro n hgel
    cases t with
    | nil => simp
    | cons q u =>
      simp only [goodExceptLast] at hgel
      simp only [List.enumFrom_cons, List.map_cons, List.dropLast_cons₂, List.all_cons]
      have h2 := ih (n + 1) hgel.2
      simp only [List.enumFrom_cons, List.map_cons] at h2
      rw [h2]
      simp only [Bool.and_true]
      exact decide_eq_true hgel.1

/-- Claim C2, counterexample: on the single-row all-ink image, with
`min_line_height = 10`, `segment_lines` still returns the band
`[0, 1)`, whose height 1 is smaller than 10 — a band still open at the
end of the image is kept without the height check. -/
theorem segment_lines_keeps_short_last_band :
    segment_lines [[0]] 10 15 = [{ line_order := 0, y_start := 0, y_end := 1 }]
    ∧ ¬ (10 ≤ 1 - 0) := by
  constructor
  · rfl
  · decide

/-- Claim C2, amended: every band returned by `segment_lines` other
than possibly the last one has height at least `min_line_height`, and
when the projection of the last image row is zero (so no band is still
open at the end) every band does; a band still open at the end of the
image is closed at the last row and kept even when shorter. -/
theorem segment_lines_heights (img : Gray) (minH maxGap : Nat) :
    (((segment_lines img minH maxGap).dropLast).all
        fun b => decide (minH ≤ b.y_end - b.y_start)) = true
    ∧ ((hProjection img).getLast? = some 0 →
        ((segment_lines img minH maxGap).all
          fun b => decide (minH ≤ b.y_end - b.y_start)) = true) := by
  have hchain := scan_chain minH (hProjection img) 0 false 0 (fun h => by cases h)
  simp only [Bool.false_eq_true, if_false] at hchain
  constructor
  · exact bands_dropLast_all minH _ 0
      (merge_goodExceptLast maxGap minH _ 0
        (scan_goodExceptLast minH (hProjection img) 0 false 0) hchain)
  · intro hlast
    rw [List.all_eq_true]
    intro b hb
    simp only [segment_lines, List.mem_map] at hb
    obtain ⟨p, hp, hpb⟩ := hb
    have h2 := merge_allGood maxGap minH _ 0
      (scan_allGood minH (hProjection img) 0 false 0 (Or.inl hlast)) hchain
      p.2 (mem_enumFrom_snd _ 0 p hp)
    subst hpb
    simpa [toBand, bandGood] using h2

/-- Claim C2, witness: on a two-row image whose ink row is followed by
a blank row, every band meets the height bound 1. -/
theorem segment_lines_heights_witness :
    ((segment_lines [[0], [255]] 1 15).all
      fun b => decide (1 ≤ b.y_end - b.y_start)) = true :=
  (segment_lines_heights [[0], [255]] 1 15).2 (by decide)

theorem scan_congr (minH : Nat) :
    ∀ (p q : List Nat),
      p.map (fun v => decide (0 < v)) = q.map (fun v => decide (0 < v)) →
      ∀ (i : Nat) (b : Bool) (s : Nat),
        scanRows minH p i b s = scanRows minH q i b s := by
  intro p
  induction p with
  | nil =>
    intro q hq i b s
    have : q = [] := by
      cases q with
      | nil => rfl
      | cons w t => simp at hq
    subst this; rfl
  | cons v pt ih =>
    intro q hq i b s
    cases q with
    | nil => simp at hq
    | cons w qt =>
      simp only [List.map_cons, List.cons.injEq] at hq
      have hvw : 0 < v ↔ 0 < w := by
        have := hq.1
        simpa [decide_eq_decide] using this
      have ht := ih qt hq.2
      by_cases hw : 0 < w
      · have hv : 0 < v := hvw.mpr hw
        have hv0 : ¬ v = 0 := by omega
        have hw0 : ¬ w = 0 := by omega
        cases b with
        | false => simp [scanRows, hv, hw, ht]
        | true => simp [scanRows, hv, hw, hv0, hw0, ht]
      · have hv : ¬ 0 < v := fun h => hw (hvw.mp h)
        have hv0 : v = 0 := by omega
        have hw0 : w = 0 := by omega
        subst hv0; subst hw0
        cases b with
        | false => simp [scanRows, ht]
        | true => simp [scanRows, ht]

/-- Claim C7: for every image whose binarised row projection has the
zero/positive pattern of `[0,0,5,5,5,0,0,3,3,0,0]`, `segment_lines`
with `min_line_height = 2` and `max_gap = 1` returns exactly the two
bands `[2,5)` and `[7,9)`: the gap of 2 between end 5 and start 7
exceeds `max_gap = 1`, so the bands are not merged. -/
theorem segment_lines_two_band_scenario (img : Gray)
    (h : (hProjection img).map (fun v => decide (0 < v)) =
      [false, false, true, true, true, false, false, true, true, false, false]) :
    segment_lines img 2 1 =
      [{ line_order := 0, y_start := 2, y_end := 5 },
       { line_order := 1, y_start := 7, y_end := 9 }] := by
  have hc := scan_congr 2 (hProjection img) [0, 0, 5, 5, 5, 0, 0, 3, 3, 0, 0]
    (by rw [h]; decide) 0 false 0
  unfold segment_lines
  rw [hc]
  decide

/-- Claim C7, witness: a width-1 image realising the projection
pattern. -/
theorem segment_lines_two_band_scenario_witness :
    segment_lines [[255], [255], [0], [0], [0], [255], [255], [0], [0], [255], [255]] 2 1 =
      [{ line_order := 0, y_start := 2, y_end := 5 },
       { line_order := 1, y_start := 7, y_end := 9 }] :=
  segment_lines_two_band_scenario
    [[255], [255], [0], [0], [0], [255], [255], [0], [0], [255], [255]] (by decide)

theorem mem_insertLe (le : α → α → Bool) (x : α) :
    ∀ (l : List α) (a : α), a ∈ insertLe le x l ↔ a = x ∨ a ∈ l := by
  intro l
  induction l with
  | nil => intro a; simp [insertLe]
  | cons y ys ih =>
    intro a
    by_cases hle : le y x
    · rw [insertLe, if_pos hle]
      simp only [List.mem_cons, ih]
      tauto
    · rw [insertLe, if_neg hle]
      simp only [List.mem_cons]

theorem insertLe_perm (le : α → α → Bool) (x : α) :
    ∀ (l : List α), (insertLe le x l).Perm (x :: l) := by
  intro l
  induction l with
  | nil => simp [insertLe]
  | cons y ys ih =>
    by_cases hle : le y x
    · simp only [insertLe, hle, if_true]
      exact (ih.cons y).trans (List.Perm.swap x y ys)
    · simp only [insertLe, hle, if_false]
      exact List.Perm.refl _

theorem sortFold_perm (le : α → α → Bool) :
    ∀ (l acc : List α),
      (l.foldl (fun acc x => insertLe le x acc) acc).Perm (acc ++ l) := by
  intro l
  induction l with
  | nil => intro acc; simp
  | cons x xs ih =>
    intro acc
    have h1 := ih (insertLe le x acc)
    have h2 : (insertLe le x acc ++ xs).Perm (acc ++ x :: xs) := by
      have h3 : (insertLe le x acc).Perm (x :: acc) := insertLe_perm le x acc
      exact (h3.append_right xs).trans (List.perm_middle.symm)
    exact h1.trans h2

theorem stableSortBy_perm (le : α → α → Bool) (l : List α) :
    (stableSortBy le l).Perm l := by
  simpa [stableSortBy] using sortFold_perm le l []

theorem insertLe_sorted (le : α → α → Bool)
    (htot : ∀ a b, le a b = true ∨ le b a = true)
    (htrans : ∀ a b c, le a b = true → le b c = true → le a c = true) (x : α) :
    ∀ (l : List α), l.Pairwise (fun a b => le a b = true) →
      (insertLe le x l).Pairwise (fun a b => le a b = true) := by
  intro l
  induction l with
  | nil => intro _; simp [insertLe]
  | cons y ys ih =>
    intro hs
    rcases List.pairwise_cons.mp hs with ⟨hy, hys⟩
    by_cases hle : le y x
    · simp only [insertLe, hle, if_true]
      refine List.pairwise_cons.mpr ⟨?_, ih hys⟩
      intro b hb
      rcases (mem_insertLe le x ys b).mp hb with h | h
      · subst h; exact hle
      · exact hy b h
    · simp only [insertLe, hle, if_false]
      refine List.pairwise_cons.mpr ⟨?_, hs⟩
      intro b hb
      have hxy : le x y = true := by
        rcases htot x y with h | h
        · exact h
        · exact absurd h hle
      rcases List.mem_cons.mp hb with h | h
      · subst h; exact hxy
      · exact htrans x y b hxy (hy b h)

theorem sortFold_sorted (le : α → α → Bool)
    (htot : ∀ a b, le a b = true ∨ le b a = true)
    (htrans : ∀ a b c, le a b = true → le b c = true → le a c = true) :
    ∀ (l acc : List α), acc.Pairwise (fun a b => le a b = true) →
      (l.foldl (fun acc x => insertLe le x acc) acc).Pairwise
        (fun a b => le a b = true) := by
  intro l
  induction l with
  | nil => intro acc h; simpa using h
  | cons x xs ih =>
    intro acc h
    exact ih (insertLe le x acc) (insertLe_sorted le htot htrans x acc h)

theorem stableSortBy_sorted (le : α → α → Bool)
    (htot : ∀ a b, le a b = true ∨ le b a = true)
    (htrans : ∀ a b c, le a b = true → le b c = true → le a c = true) (l : List α) :
    (stableSortBy le l).Pairwise (fun a b => le a b = true) :=
  sortFold_sorted le htot htrans l [] List.Pairwise.nil

theorem lexLe_total (p q : Nat × Int) : lexLe p q ∨ lexLe q p := by
  obtain ⟨a, b⟩ := p
  obtain ⟨c, d⟩ := q
  simp only [lexLe]
  rcases Nat.lt_trichotomy a c with h | h | h
  · exact Or.inl (Or.inl h)
  · rcases le_total b d with h2 | h2
    · exact Or.inl (Or.inr ⟨h, h2⟩)
    · exact Or.inr (Or.inr ⟨h.symm, h2⟩)
  · exact Or.inr (Or.inl h)

theorem lexLe_trans (p q r : Nat × Int) : lexLe p q → lexLe q r → lexLe p r := by
  obtain ⟨a, b⟩ := p
  obtain ⟨c, d⟩ := q
  obtain ⟨e, f⟩ := r
  simp only [lexLe]
  intro h1 h2
  rcases h1 with h1 | h1 <;> rcases h2 with h2 | h2
  · exact Or.inl (lt_trans h1 h2)
  · exact Or.inl (by omega)
  · exact Or.inl (by omega)
  · exact Or.inr ⟨h1.1.trans h2.1, le_trans h1.2 h2.2⟩

theorem lexLe_refl_of_eq (p q : Nat × Int) (h : p = q) : lexLe p q := by
  subst h
  exact Or.inr ⟨rfl, le_refl _⟩

theorem keyLe_total (key : α → Nat × Int) (a b : α) :
    decide (lexLe (key a) (key b)) = true ∨ decide (lexLe (key b) (key a)) = true := by
  rcases lexLe_total (key a) (key b) with h | h
  · exact Or.inl (decide_eq_true h)
  · exact Or.inr (decide_eq_true h)

theorem keyLe_trans (key : α → Nat × Int) (a b c : α) :
    decide (lexLe (key a) (key b)) = true → decide (lexLe (key b) (key c)) = true →
    decide (lexLe (key a) (key c)) = true := by
  intro h1 h2
  exact decide_eq_true (lexLe_trans _ _ _ (of_decide_eq_true h1) (of_decide_eq_true h2))

theorem insertLe_filter_key (key : α → Nat × Int) [DecidableEq α] (x : α) (k : Nat × Int) :
    ∀ (l : List α),
      l.Pairwise (fun a b => decide (lexLe (key a) (key b)) = true) →
      (insertLe (fun a b => decide (lexLe (key a) (key b))) x l).filter
          (fun c => decide (key c = k)) =
        if key x = k then l.filter (fun c => decide (key c = k)) ++ [x]
        else l.filter (fun c => decide (key c = k)) := by
  intro l
  induction l with
  | nil =>
    intro _
    by_cases hk : key x = k
    · simp [insertLe, hk]
    · simp [insertLe, hk]
  | cons y ys ih =>
    intro hs
    rcases List.pairwise_cons.mp hs with ⟨hy, hys⟩
    by_cases hle : decide (lexLe (key y) (key x)) = true
    · simp only [insertLe, hle, if_true]
      by_cases hyk : key y = k
      · simp only [List.filter_cons, hyk, decide_eq_true rfl, if_true, ih hys]
        by_cases hk : key x = k
        · simp [hk]
        · simp [hk]
      · have : (decide (key y = k)) = false := decide_eq_false hyk
        simp only [List.filter_cons, this, ih hys]
        by_cases hk : key x = k
        · simp [hk]
        · simp [hk]
    · simp only [insertLe, hle, if_false]
      by_cases hk : key x = k
      · have hfy : ∀ z ∈ y :: ys, key z ≠ k := by
          intro z hz hzk
          rcases List.mem_cons.mp hz with h | h
          · subst h
            exact hle (decide_eq_true (lexLe_refl_of_eq _ _ (hzk.trans hk.symm)))
          · have hyz := hy z h
            have : lexLe (key y) (key x) :=
              lexLe_trans _ _ _ (of_decide_eq_true hyz)
                (lexLe_refl_of_eq _ _ (hzk.trans hk.symm))
            exact hle (decide_eq_true this)
        have hfilt : (y :: ys).filter (fun c => decide (key c = k)) = [] := by
          rw [List.filter_eq_nil_iff]
          intro z hz
          simpa using hfy z hz
        simp [List.filter_cons, hk, hfilt]
      · have : (decide (key x = k)) = false := decide_eq_false hk
        simp [List.filter_cons, this, hk]

theorem sortFold_filter_key (key : α → Nat × Int) [DecidableEq α] (k : Nat × Int) :
    ∀ (l acc : List α),
      acc.Pairwise (fun a b => decide (lexLe (key a) (key b)) = true) →
      (l.foldl (fun acc x => insertLe (fun a b => decide (lexLe (key a) (key b))) x acc)
          acc).filter (fun c => decide (key c = k)) =
        acc.filter (fun c => decide (key c = k)) ++ l.filter (fun c => decide (key c = k)) := by
  intro l
  induction l with
  | nil => intro acc _; simp
  | cons x xs ih =>
    intro acc hs
    have hacc' := insertLe_sorted (fun a b => decide (lexLe (key a) (key b)))
      (keyLe_total key) (keyLe_trans key) x acc hs
    have h1 := ih (insertLe (fun a b => decide (lexLe (key a) (key b))) x acc) hacc'
    simp only [List.foldl_cons] at h1 ⊢
    rw [h1, insertLe_filter_key key x k acc hs]
    by_cases hk : key x = k
    · simp [hk, List.filter_cons]
    · have : (decide (key x = k)) = false := decide_eq_false hk
      simp [hk, List.filter_cons, this]

theorem stableSortBy_filter_key (key : α → Nat × Int) [DecidableEq α] (k : Nat × Int)
    (l : List α) :
    (stableSortBy (fun a b => decide (lexLe (key a) (key b))) l).filter
        (fun c => decide (key c = k)) =
      l.filter (fun c => decide (key c = k)) := by
  simpa [stableSortBy] using sortFold_filter_key key k l [] List.Pairwise.nil

/-- Claim C6: `sort_characters_reading_order` returns a permutation of
its input sorted by the lexicographic key (bbox top, then bbox x
negated when right-to-left), the sort is stable (the sublist of glyphs
carrying any fixed key is preserved verbatim from the input), and on
two same-row glyphs at x 10 and x 50 with `rtl = true` the x 50 glyph
comes first. -/
theorem sort_reading_order_correct :
    (∀ (chars : List Glyph) (rtl : Bool),
      (sort_characters_reading_order chars rtl).Perm chars
      ∧ (sort_characters_reading_order chars rtl).Pairwise
          (fun a b => lexLe (readKey rtl a) (readKey rtl b))
      ∧ ∀ k : Nat × Int,
          (sort_characters_reading_order chars rtl).filter
              (fun c => decide (readKey rtl c = k))
            = chars.filter (fun c => decide (readKey rtl c = k)))
    ∧ sort_characters_reading_order
        [{ id := 0, bbox := { x := 10, y := 0, w := 1, h := 1 }, area := 1, groupId := 0 },
         { id := 1, bbox := { x := 50, y := 0, w := 1, h := 1 }, area := 1, groupId := 0 }]
        true
      = [{ id := 1, bbox := { x := 50, y := 0, w := 1, h := 1 }, area := 1, groupId := 0 },
         { id := 0, bbox := { x := 10, y := 0, w := 1, h := 1 }, area := 1, groupId := 0 }] := by
  constructor
  · intro chars rtl
    by_cases hnil : chars = []
    · subst hnil
      refine ⟨by simp [sort_characters_reading_order], ?_, ?_⟩
      · simp [sort_characters_reading_order]
      · intro k; simp [sort_characters_reading_order]
    · simp only [sort_characters_reading_order, hnil, if_false]
      refine ⟨stableSortBy_perm _ chars, ?_, ?_⟩
      · have h := stableSortBy_sorted (fun a b => decide (lexLe (readKey rtl a) (readKey rtl b)))
          (keyLe_total (readKey rtl)) (keyLe_trans (readKey rtl)) chars
        exact h.imp fun hab => of_decide_eq_true hab
      · intro k
        exact stableSortBy_filter_key (readKey rtl) k chars
  · decide

theorem insertGroup_flatMap (gid : Int) (c : Glyph) :
    ∀ (gs : List (Int × List Glyph)),
      ((insertGroup gs gid c).flatMap Prod.snd).Perm (gs.flatMap Prod.snd ++ [c]) := by
  intro gs
  induction gs with
  | nil => simp [insertGroup]
  | cons p rest ih =>
    obtain ⟨k, v⟩ := p
    by_cases hk : k = gid
    · subst hk
      rw [insertGroup, if_pos rfl]
      simp only [List.flatMap_cons, List.append_assoc]
      exact List.Perm.append_left v List.perm_append_comm
    · rw [insertGroup, if_neg hk]
      simp only [List.flatMap_cons, List.append_assoc]
      exact List.Perm.append_left v ih

theorem buildFold_flatMap :
    ∀ (l : List Glyph) (gs : List (Int × List Glyph)),
      ((l.foldl (fun a c => insertGroup a c.groupId c) gs).flatMap Prod.snd).Perm
        (gs.flatMap Prod.snd ++ l) := by
  intro l
  induction l with
  | nil => intro gs; simp
  | cons x xs ih =>
    intro gs
    have h1 := ih (insertGroup gs x.groupId x)
    have h3 := (insertGroup_flatMap x.groupId x gs).append_right xs
    have h4 : (gs.flatMap Prod.snd ++ [x]) ++ xs = gs.flatMap Prod.snd ++ x :: xs := by
      simp
    rw [h4] at h3
    simp only [List.foldl_cons]
    exact h1.trans h3

theorem buildGroups_flatMap (l : List Glyph) :
    ((buildGroups l).flatMap Prod.snd).Perm l := by
  simpa [buildGroups] using buildFold_flatMap l []

theorem sortGroupsBySize_flatMap (gs : List (Int × List Glyph)) :
    ((sortGroupsBySize gs).flatMap Prod.snd).Perm (gs.flatMap Prod.snd) := by
  rw [List.flatMap_def, List.flatMap_def]
  exact List.Perm.flatten (List.Perm.map Prod.snd (stableSortBy_perm _ gs))

/-- Claim C4: for every non-empty glyph list, label vector of matching
length (the output of the external clustering call) and supported
method, `group_characters_by_similarity` returns a partition: the
concatenation of all member lists is a permutation of the input glyphs
with their assigned group ids, so every input glyph lands in exactly
one group, and the total member count equals the input count. -/
theorem group_partition (chars : List Glyph) (labels : List Int) (method : String)
    (hne : chars ≠ []) (hm : method = "kmeans" ∨ method = "dbscan")
    (hlen : labels.length = chars.length) :
    ∃ gs, group_characters_by_similarity chars method labels = .ok gs
      ∧ (gs.map fun p => p.2.length).sum = chars.length
      ∧ (gs.flatMap Prod.snd).Perm
          (chars.zipWith (fun c l => { c with groupId := l }) labels) := by
  have key : ∀ clustered : List Glyph,
      ((sortGroupsBySize (buildGroups clustered)).map fun p => p.2.length).sum
        = clustered.length
      ∧ ((sortGroupsBySize (buildGroups clustered)).flatMap Prod.snd).Perm clustered := by
    intro clustered
    have hp : ((sortGroupsBySize (buildGroups clustered)).flatMap Prod.snd).Perm clustered :=
      (sortGroupsBySize_flatMap (buildGroups clustered)).trans (buildGroups_flatMap clustered)
    refine ⟨?_, hp⟩
    have hlen2 : ((sortGroupsBySize (buildGroups clustered)).flatMap Prod.snd).length
        = clustered.length := hp.length_eq
    rw [List.flatMap_def, List.length_flatten, List.map_map] at hlen2
    simpa [Function.comp] using hlen2
  have hclen : (chars.zipWith (fun c l => { c with groupId := l }) labels).length
      = chars.length := by
    rw [List.length_zipWith, hlen, min_self]
  rcases hm with h | h <;> subst h
  · refine ⟨sortGroupsBySize (buildGroups (cluster_characters_kmeans chars labels)),
      ?_, ?_, ?_⟩
    · simp [group_characters_by_similarity]
    · simpa [cluster_characters_kmeans, hne, hclen] using
        (key (cluster_characters_kmeans chars labels)).1
    · simpa [cluster_characters_kmeans, hne] using
        (key (cluster_characters_kmeans chars labels)).2
  · refine ⟨sortGroupsBySize (buildGroups (cluster_characters_dbscan chars labels)),
      ?_, ?_, ?_⟩
    · simp [group_characters_by_similarity]
    · simpa [cluster_characters_dbscan, hne, hclen] using
        (key (cluster_characters_dbscan chars labels)).1
    · simpa [cluster_characters_dbscan, hne] using
        (key (cluster_characters_dbscan chars labels)).2

/-- Claim C4, witness: two glyphs with labels 3 and -1 form two
singleton groups whose member counts sum to 2. -/
theorem group_partition_witness :
    ∃ gs, group_characters_by_similarity
        [{ id := 0, bbox := { x := 0, y := 0, w := 1, h := 1 }, area := 1, groupId := 0 },
         { id := 1, bbox := { x := 2, y := 0, w := 1, h := 1 }, area := 1, groupId := 0 }]
        "dbscan" [3, -1] = .ok gs
      ∧ (gs.map fun p => p.2.length).sum = 2
      ∧ (gs.flatMap Prod.snd).Perm
          (List.zipWith (fun c l => { c with groupId := l })
            ([{ id := 0, bbox := { x := 0, y := 0, w := 1, h := 1 }, area := 1, groupId := 0 },
              { id := 1, bbox := { x := 2, y := 0, w := 1, h := 1 }, area := 1,
                groupId := 0 }] : List Glyph) [3, -1]) :=
  group_partition
    [{ id := 0, bbox := { x := 0, y := 0, w := 1, h := 1 }, area := 1, groupId := 0 },
     { id := 1, bbox := { x := 2, y := 0, w := 1, h := 1 }, area := 1, groupId := 0 }]
    [3, -1] "dbscan" (by decide) (Or.inr rfl) rfl

/-- Claim C8: `group_characters_by_similarity` fails with the
`ValueError` message, doing no clustering work and returning no partial
result, for every method other than the two supported ones; and for
each supported method the empty glyph list yields the empty mapping. -/
theorem group_unknown_method_and_empty :
    (∀ (chars : List Glyph) (labels : List Int) (method : String),
      method ≠ "kmeans" → method ≠ "dbscan" →
      group_characters_by_similarity chars method labels
        = .error ("Unknown clustering method: " ++ method))
    ∧ ∀ labels : List Int,
        group_characters_by_similarity [] "kmeans" labels = .ok []
        ∧ group_characters_by_similarity [] "dbscan" labels = .ok [] := by
  constructor
  · intro chars labels method h1 h2
    simp [group_characters_by_similarity, h1, h2]
  · intro labels
    exact ⟨rfl, rfl⟩

/-- Claim C8, witness: the unsupported method name is rejected with the
error message, and the empty list maps to the empty grouping. -/
theorem group_unknown_method_witness :
    group_characters_by_similarity [] "average" []
      = .error ("Unknown clustering method: " ++ "average")
    ∧ group_characters_by_similarity [] "kmeans" [] = .ok [] :=
  ⟨group_unknown_method_and_empty.1 [] [] "average" (by decide) (by decide),
   (group_unknown_method_and_empty.2 []).1⟩

theorem findVal_cons (p : Int × List Glyph) (gs : List (Int × List Glyph)) (k : Int) :
    findVal (p :: gs) k = if p.1 = k then some p.2 else findVal gs k := by
  by_cases hp : p.1 = k
  · have h2 : List.find? (fun q => decide (q.1 = k)) (p :: gs) = some p :=
      List.find?_cons_of_pos gs (decide_eq_true hp)
    rw [findVal, h2, if_pos hp]
    rfl
  · have h2 : List.find? (fun q => decide (q.1 = k)) (p :: gs)
        = List.find? (fun q => decide (q.1 = k)) gs :=
      List.find?_cons_of_neg gs (by simpa using hp)
    rw [findVal, h2, if_neg hp]
    rfl

theorem setVal_cons (p : Int × List Glyph) (gs : List (Int × List Glyph)) (k : Int)
    (v : List Glyph) :
    setVal (p :: gs) k v = (if p.1 = k then (k, v) else p) :: setVal gs k v := rfl

theorem removeKey_cons (p : Int × List Glyph) (gs : List (Int × List Glyph)) (k : Int) :
    removeKey (p :: gs) k = if p.1 = k then removeKey gs k else p :: removeKey gs k := by
  by_cases hp : p.1 = k
  · simp [removeKey, List.filter_cons, hp]
  · simp [removeKey, List.filter_cons, hp]

theorem setVal_keys (gs : List (Int × List Glyph)) (k : Int) (v : List Glyph) :
    (setVal gs k v).map Prod.fst = gs.map Prod.fst := by
  induction gs with
  | nil => rfl
  | cons p rest ih =>
    rw [setVal_cons]
    by_cases hp : p.1 = k
    · simp [hp, ih]
    · simp [hp, ih]

theorem setVal_length (gs : List (Int × List Glyph)) (k : Int) (v : List Glyph) :
    (setVal gs k v).length = gs.length := by
  simp [setVal]

theorem setVal_no_key (gs : List (Int × List Glyph)) (k : Int) (v : List Glyph)
    (h : ∀ p ∈ gs, p.1 ≠ k) : setVal gs k v = gs := by
  induction gs with
  | nil => rfl
  | cons p rest ih =>
    rw [setVal_cons, if_neg (h p (List.mem_cons_self _ _))]
    rw [ih fun q hq => h q (List.mem_cons_of_mem _ hq)]

theorem removeKey_no_key (gs : List (Int × List Glyph)) (k : Int)
    (h : ∀ p ∈ gs, p.1 ≠ k) : removeKey gs k = gs := by
  rw [removeKey, List.filter_eq_self]
  intro p hp
  exact decide_eq_true (h p hp)

theorem not_mem_keys (rest : List (Int × List Glyph)) (a : Int)
    (h : a ∉ rest.map Prod.fst) : ∀ p ∈ rest, p.1 ≠ a := by
  intro p hp hpa
  exact h (hpa ▸ List.mem_map_of_mem Prod.fst hp)

theorem findVal_setVal_same (gs : List (Int × List Glyph)) (k : Int) (v v0 : List Glyph)
    (h : findVal gs k = some v0) : findVal (setVal gs k v) k = some v := by
  induction gs with
  | nil => simp [findVal] at h
  | cons p rest ih =>
    rw [findVal_cons] at h
    rw [setVal_cons]
    by_cases hp : p.1 = k
    · rw [if_pos hp, findVal_cons, if_pos rfl]
    · rw [if_neg hp] at h
      rw [if_neg hp, findVal_cons, if_neg hp]
      exact ih h

theorem findVal_setVal_other (gs : List (Int × List Glyph)) (k k' : Int) (v : List Glyph)
    (h : k' ≠ k) : findVal (setVal gs k v) k' = findVal gs k' := by
  induction gs with
  | nil => rfl
  | cons p rest ih =>
    rw [setVal_cons, findVal_cons, findVal_cons]
    by_cases hp : p.1 = k
    · rw [if_pos hp]
      have h1 : ¬ ((k, v).1 = k') := fun h2 => h h2.symm
      have h2 : ¬ (p.1 = k') := fun hq => h (hq ▸ hp)
      rw [if_neg h1, if_neg h2, ih]
    · rw [if_neg hp]
      by_cases hp' : p.1 = k'
      · rw [if_pos hp', if_pos hp']
      · rw [if_neg hp', if_neg hp', ih]

theorem findVal_removeKey_same (gs : List (Int × List Glyph)) (k : Int) :
    findVal (removeKey gs k) k = none := by
  induction gs with
  | nil => rfl
  | cons p rest ih =>
    rw [removeKey_cons]
    by_cases hp : p.1 = k
    · rw [if_pos hp]
      exact ih
    · rw [if_neg hp, findVal_cons, if_neg hp]
      exact ih

theorem findVal_removeKey_other (gs : List (Int × List Glyph)) (k k' : Int)
    (h : k' ≠ k) : findVal (removeKey gs k) k' = findVal gs k' := by
  induction gs with
  | nil => rfl
  | cons p rest ih =>
    rw [removeKey_cons, findVal_cons]
    by_cases hp : p.1 = k
    · have hp' : ¬ (p.1 = k') := fun h2 => h (h2 ▸ hp).symm.symm
      rw [if_pos hp, if_neg hp', ih]
    · rw [if_neg hp, findVal_cons]
      by_cases hp' : p.1 = k'
      · rw [if_pos hp', if_pos hp']
      · rw [if_neg hp', if_neg hp', ih]

theorem removeKey_length (gs : List (Int × List Glyph)) (k : Int) (v : List Glyph)
    (hnod : (gs.map Prod.fst).Nodup) (h : findVal gs k = some v) :
    (removeKey gs k).length + 1 = gs.length := by
  induction gs with
  | nil => simp [findVal] at h
  | cons p rest ih =>
    simp only [List.map_cons, List.nodup_cons] at hnod
    rw [removeKey_cons]
    by_cases hp : p.1 = k
    · rw [if_pos hp, removeKey_no_key rest k (by rw [← hp]; exact not_mem_keys rest p.1 hnod.1)]
      simp
    · rw [findVal_cons, if_neg hp] at h
      rw [if_neg hp]
      simp only [List.length_cons]
      rw [← ih hnod.2 h]

theorem msum_setVal (gs : List (Int × List Glyph)) (k : Int) (v v0 : List Glyph)
    (hnod : (gs.map Prod.fst).Nodup) (h : findVal gs k = some v0) :
    ((setVal gs k v).map fun p => p.2.length).sum + v0.length
      = ((gs.map fun p => p.2.length).sum) + v.length := by
  induction gs with
  | nil => simp [findVal] at h
  | cons p rest ih =>
    simp only [List.map_cons, List.nodup_cons] at hnod
    rw [findVal_cons] at h
    rw [setVal_cons]
    by_cases hp : p.1 = k
    · rw [if_pos hp] at h
      have hv0 : p.2 = v0 := by simpa using h
      rw [if_pos hp, setVal_no_key rest k v (by rw [← hp]; exact not_mem_keys rest p.1 hnod.1)]
      simp [hv0]
      omega
    · rw [if_neg hp] at h
      rw [if_neg hp]
      simp only [List.map_cons, List.sum_cons]
      have := ih hnod.2 h
      omega

theorem msum_removeKey (gs : List (Int × List Glyph)) (k : Int) (v : List Glyph)
    (hnod : (gs.map Prod.fst).Nodup) (h : findVal gs k = some v) :
    ((removeKey gs k).map fun p => p.2.length).sum + v.length
      = (gs.map fun p => p.2.length).sum := by
  induction gs with
  | nil => simp [findVal] at h
  | cons p rest ih =>
    simp only [List.map_cons, List.nodup_cons] at hnod
    rw [findVal_cons] at h
    rw [removeKey_cons]
    by_cases hp : p.1 = k
    · rw [if_pos hp] at h
      have hv : p.2 = v := by simpa using h
      rw [if_pos hp, removeKey_no_key rest k (by rw [← hp]; exact not_mem_keys rest p.1 hnod.1)]
      simp [hv]
      omega
    · rw [if_neg hp] at h
      rw [if_neg hp]
      simp only [List.map_cons, List.sum_cons]
      have := ih hnod.2 h
      omega

/-- Claim C5, counterexample: `merge_character_groups` does not reduce
the group count for every pair of ids.  On the one-group mapping with
absent ids 0 and 1 it returns the mapping unchanged (count stays 1
instead of dropping by one and id 1 is not removed), and with the two
ids equal it raises `KeyError` instead of returning a mapping at all. -/
theorem merge_groups_counterexample :
    merge_character_groups [(5, [])] 0 1 = some [(5, [])]
    ∧ (merge_character_groups [(5, [])] 0 1).map List.length ≠ some 0
    ∧ merge_character_groups [(5, [])] 5 5 = none := by
  refine ⟨rfl, ?_, rfl⟩
  decide

/-- Claim C5, amended: for every groups mapping with distinct keys that
contains both ids, and distinct ids `id1 ≠ id2`, `merge_character_groups`
reassigns every member of id2 into id1 (id1's list becomes id1's old
members followed by id2's, all with `group_id` rewritten to id1),
removes id2, reduces the number of groups by exactly one, and leaves
the total member count unchanged. -/
theorem merge_groups_correct (gs : List (Int × List Glyph)) (id1 id2 : Int)
    (v1 v2 : List Glyph) (hnod : (gs.map Prod.fst).Nodup)
    (h1 : findVal gs id1 = some v1) (h2 : findVal gs id2 = some v2)
    (hne : id1 ≠ id2) :
    ∃ gs', merge_character_groups gs id1 id2 = some gs'
      ∧ gs'.length + 1 = gs.length
      ∧ findVal gs' id2 = none
      ∧ findVal gs' id1 = some ((v1 ++ v2).map fun c => { c with groupId := id1 })
      ∧ (gs'.map fun p => p.2.length).sum = (gs.map fun p => p.2.length).sum := by
  have hkeys1 : (setVal gs id1 (v1 ++ v2)).map Prod.fst = gs.map Prod.fst :=
    setVal_keys gs id1 (v1 ++ v2)
  have hnod1 : ((setVal gs id1 (v1 ++ v2)).map Prod.fst).Nodup := by rw [hkeys1]; exact hnod
  have hf1 : findVal (setVal gs id1 (v1 ++ v2)) id1 = some (v1 ++ v2) :=
    findVal_setVal_same gs id1 (v1 ++ v2) v1 h1
  have hf12 : findVal (setVal gs id1 (v1 ++ v2)) id2 = some v2 := by
    rw [findVal_setVal_other gs id1 id2 (v1 ++ v2) (Ne.symm hne)]
    exact h2
  have hf2 : findVal (removeKey (setVal gs id1 (v1 ++ v2)) id2) id1 = some (v1 ++ v2) := by
    rw [findVal_removeKey_other _ id2 id1 hne]
    exact hf1
  have hnod2 : ((removeKey (setVal gs id1 (v1 ++ v2)) id2).map Prod.fst).Nodup := by
    refine List.Nodup.sublist ?_ hnod1
    exact ((setVal gs id1 (v1 ++ v2)).filter_sublist).map Prod.fst
  refine ⟨setVal (removeKey (setVal gs id1 (v1 ++ v2)) id2) id1
    ((v1 ++ v2).map fun c => { c with groupId := id1 }), ?_, ?_, ?_, ?_, ?_⟩
  · simp only [merge_character_groups, h1, h2, hf2]
  · rw [setVal_length]
    rw [removeKey_length _ id2 v2 hnod1 hf12, setVal_length]
  · rw [findVal_setVal_other _ id1 id2 _ (Ne.symm hne)]
    exact findVal_removeKey_same _ id2
  · exact findVal_setVal_same _ id1 _ (v1 ++ v2) hf2
  · have e1 := msum_setVal (removeKey (setVal gs id1 (v1 ++ v2)) id2) id1
      ((v1 ++ v2).map fun c => { c with groupId := id1 }) (v1 ++ v2) hnod2 hf2
    have e2 := msum_removeKey (setVal gs id1 (v1 ++ v2)) id2 v2 hnod1 hf12
    have e3 := msum_setVal gs id1 (v1 ++ v2) v1 hnod h1
    have e4 : ((v1 ++ v2).map fun c => { c with groupId := id1 }).length
        = (v1 ++ v2).length := List.length_map _ _
    have e5 : (v1 ++ v2).length = v1.length + v2.length := List.length_append v1 v2
    omega

/-- Claim C5, witness: merging the two-group mapping at ids 0 and 1
gives one group of both members retagged with id 0. -/
theorem merge_groups_correct_witness :
    ∃ gs', merge_character_groups
        [(0, [{ id := 0, bbox := { x := 0, y := 0, w := 1, h := 1 }, area := 1, groupId := 0 }]),
         (1, [{ id := 1, bbox := { x := 2, y := 0, w := 1, h := 1 }, area := 1, groupId := 1 }])]
        0 1 = some gs'
      ∧ gs'.length + 1 = 2
      ∧ findVal gs' 1 = none
      ∧ findVal gs' 0 = some
          (List.map (fun c => { c with groupId := 0 })
            (([{ id := 0, bbox := { x := 0, y := 0, w := 1, h := 1 }, area := 1, groupId := 0 }] :
                List Glyph)
              ++ [{ id := 1, bbox := { x := 2, y := 0, w := 1, h := 1 }, area := 1,
                    groupId := 1 }]))
      ∧ (gs'.map fun p => p.2.length).sum = 2 := by
  have h := merge_groups_correct
    [(0, [{ id := 0, bbox := { x := 0, y := 0, w := 1, h := 1 }, area := 1, groupId := 0 }]),
     (1, [{ id := 1, bbox := { x := 2, y := 0, w := 1, h := 1 }, area := 1, groupId := 1 }])]
    0 1
    [{ id := 0, bbox := { x := 0, y := 0, w := 1, h := 1 }, area := 1, groupId := 0 }]
    [{ id := 1, bbox := { x := 2, y := 0, w := 1, h := 1 }, area := 1, groupId := 1 }]
    (by decide) rfl rfl (by decide)
  obtain ⟨gs', ha, hb, hc, hd, he⟩ := h
  exact ⟨gs', ha, hb, hc, hd, he⟩

/-- Claim C9: when either group id is absent from the mapping,
`merge_character_groups` returns the mapping unchanged: no group is
removed, nothing is reassigned, every member list is identical. -/
theorem merge_groups_missing_id_unchanged (gs : List (Int × List Glyph)) (id1 id2 : Int)
    (h : findVal gs id1 = none ∨ findVal gs id2 = none) :
    merge_character_groups gs id1 id2 = some gs := by
  rcases h with h | h
  · cases h2 : findVal gs id2 with
    | none => rw [merge_character_groups, h, h2]
    | some v2 => rw [merge_character_groups, h, h2]
  · cases h1 : findVal gs id1 with
    | none => rw [merge_character_groups, h1, h]
    | some v1 => rw [merge_character_groups, h1, h]

/-- Claim C9, witness: merging absent id 7 into the singleton mapping
leaves it untouched. -/
theorem merge_groups_missing_id_witness :
    merge_character_groups
        [(0, [{ id := 0, bbox := { x := 0, y := 0, w := 1, h := 1 }, area := 1, groupId := 0 }])]
        0 7
      = some
        [(0, [{ id := 0, bbox := { x := 0, y := 0, w := 1, h := 1 }, area := 1,
                groupId := 0 }])] :=
  merge_groups_missing_id_unchanged
    [(0, [{ id := 0, bbox := { x := 0, y := 0, w := 1, h := 1 }, area := 1, groupId := 0 }])]
    0 7 (Or.inr rfl)

theorem resizeNN_flatten_length (img : Gray) (nh nw : Nat) (g : Gray)
    (h : resizeNN img nh nw = some g) : g.flatten.length = nh * nw := by
  rw [resizeNN] at h
  by_cases hc : img.length = 0 ∨ (img.headD []).length = 0
  · rw [if_pos hc] at h
    cases h
  · rw [if_neg hc] at h
    have hg := Option.some.inj h
    subst hg
    rw [List.length_flatten, List.map_map]
    have h2 : (List.length ∘ fun i => (List.range nw).map fun j =>
        (img.getD (i * img.length / nh) []).getD (j * (img.headD []).length / nw) 0)
        = fun _ => nw := by
      funext i
      simp [Function.comp]
    rw [h2, List.map_const', List.sum_replicate, List.length_range, smul_eq_mul]

/-- Claim C10, counterexample: `extract_simple_features` is not total
on degenerate glyph images — on the zero-height image and on a
zero-width image the `cv2.resize` call raises, so no feature vector is
returned. -/
theorem extract_simple_features_not_total :
    extract_simple_features ([] : Gray) = none
    ∧ extract_simple_features ([[]] : Gray) = none := by
  constructor <;> rfl

/-- Claim C10, amended: the division guards in
`extract_simple_features` are real — the aspect-ratio expression is 0
when the glyph height is 0 and the density expression is 0 when the
pixel count `h * w` is 0, so no division by zero occurs — but the
subsequent `cv2.resize` call raises on every degenerate image (zero
height or zero width), so no feature vector is returned there; on
every image with positive height and width a 258-entry feature vector
is returned, carrying the two guarded values as its first entries. -/
theorem extract_simple_features_guarded (img : Gray) :
    (img.length = 0 → aspect_ratio_of img = 0)
    ∧ (img.length * (img.headD []).length = 0 → density_of img = 0)
    ∧ (img.length = 0 ∨ (img.headD []).length = 0 →
        extract_simple_features img = none)
    ∧ (0 < img.length → 0 < (img.headD []).length →
        ∃ fv, extract_simple_features img = some fv ∧ fv.length = 258
          ∧ fv[0]? = some (aspect_ratio_of img)
          ∧ fv[1]? = some (density_of img)) := by
  refine ⟨?_, ?_, ?_, ?_⟩
  · intro h0
    simp [aspect_ratio_of, h0]
  · intro h0
    rw [density_of, h0]
    simp
  · intro h0
    rw [extract_simple_features, resizeNN, if_pos h0]
  · intro h1 h2
    have hc : ¬ (img.length = 0 ∨ (img.headD []).length = 0) := by
      intro h
      rcases h with h | h <;> omega
    obtain ⟨g, hg⟩ : ∃ g, resizeNN img 16 16 = some g := by
      rw [resizeNN, if_neg hc]
      exact ⟨_, rfl⟩
    refine ⟨aspect_ratio_of img :: density_of img ::
      g.flatten.map fun (v : Nat) => (v : ℚ) / 255, ?_, ?_, by simp, by simp⟩
    · rw [extract_simple_features, hg]
    · have hlen : (g.flatten.map fun (v : Nat) => (v : ℚ) / 255).length = 256 := by
        rw [List.length_map, resizeNN_flatten_length img 16 16 g hg]
      rw [List.length_cons, List.length_cons, hlen]

/-- Claim C10, witness: the guards evaluate to 0 on degenerate images,
resize fails there, and the single-pixel image gets its full 258-entry
vector with the guarded head entries. -/
theorem extract_simple_features_guarded_witness :
    aspect_ratio_of ([] : Gray) = 0
    ∧ density_of ([[]] : Gray) = 0
    ∧ extract_simple_features ([] : Gray) = none
    ∧ ∃ fv, extract_simple_features [[0]] = some fv ∧ fv.length = 258
        ∧ fv[0]? = some (aspect_ratio_of [[0]])
        ∧ fv[1]? = some (density_of [[0]]) :=
  ⟨(extract_simple_features_guarded []).1 rfl,
   (extract_simple_features_guarded [[]]).2.1 rfl,
   (extract_simple_features_guarded []).2.2.1 (Or.inl rfl),
   (extract_simple_features_guarded [[0]]).2.2.2 (by decide) (by decide)⟩

theorem mem_enumFrom_bounds : ∀ (l : List α) (n : Nat) (x : Nat × α),
    x ∈ List.enumFrom n l → n ≤ x.1 ∧ x.1 < n + l.length := by
  intro l
  induction l with
  | nil => intro n x hx; cases hx
  | cons a t ih =>
    intro n x hx
    simp only [List.enumFrom_cons] at hx
    rcases List.mem_cons.mp hx with h | h
    · subst h; simp
    · have := ih (n + 1) x h
      constructor <;> [omega; (simp only [List.length_cons]; omega)]

theorem enum_nodup (l : List α) : l.enum.Nodup :=
  List.Nodup.of_map Prod.fst (List.nodup_enum_map_fst l)

theorem rowPixels_mem (r : Nat) (row : List Nat) (p : Nat × Nat)
    (hp : p ∈ rowPixels r row) : p.1 = r ∧ p.2 < row.length := by
  simp only [rowPixels, List.mem_map] at hp
  obtain ⟨cv, hcv, hcvp⟩ := hp
  have hmem := (List.mem_filter.mp hcv).1
  have hb := mem_enumFrom_bounds row 0 cv hmem
  subst hcvp
  exact ⟨rfl, by simpa using hb.2⟩

theorem rowPixels_nodup (r : Nat) (row : List Nat) : (rowPixels r row).Nodup := by
  rw [rowPixels]
  have hfil : (row.enum.filter fun cv => decide (cv.2 ≤ 127)).Nodup :=
    List.Nodup.filter _ (enum_nodup row)
  refine List.Nodup.map_on ?_ hfil
  intro x hx y hy hxy
  have hx2 : x ∈ row.enum := (List.filter_sublist row.enum).subset hx
  have hy2 : y ∈ row.enum := (List.filter_sublist row.enum).subset hy
  have hfst : x.1 = y.1 := by
    have := congrArg Prod.snd hxy
    simpa using this
  exact List.inj_on_of_nodup_map (List.nodup_enum_map_fst row) hx2 hy2 hfst

theorem foregroundPixels_mem (img : Gray) (p : Nat × Nat)
    (hp : p ∈ foregroundPixels img) :
    p.1 < img.length ∧ ∃ row ∈ img, p.2 < row.length := by
  simp only [foregroundPixels, List.mem_flatMap] at hp
  obtain ⟨rrow, hrrow, hprp⟩ := hp
  have hb := mem_enumFrom_bounds img 0 rrow hrrow
  have hrow : rrow.2 ∈ img := mem_enumFrom_snd img 0 rrow hrrow
  have hm := rowPixels_mem rrow.1 rrow.2 p hprp
  exact ⟨by omega, rrow.2, hrow, hm.2⟩

theorem foregroundPixels_nodup (img : Gray) : (foregroundPixels img).Nodup := by
  rw [foregroundPixels, List.nodup_flatMap]
  constructor
  · intro x _
    exact rowPixels_nodup x.1 x.2
  · have hfst : img.enum.Pairwise fun a b => a.1 ≠ b.1 := by
      have := List.nodup_enum_map_fst img
      rw [List.Nodup] at this
      exact (List.pairwise_map).mp this
    refine hfst.imp ?_
    intro a b hab
    intro q hqa hqb
    have h1 := (rowPixels_mem a.1 a.2 q hqa).1
    have h2 := (rowPixels_mem b.1 b.2 q hqb).1
    exact hab (h1 ▸ h2 ▸ rfl)

theorem addPixel_flatten_perm (comps : List (List (Nat × Nat))) (p : Nat × Nat) :
    (addPixel comps p).flatten.Perm (p :: comps.flatten) := by
  rw [addPixel]
  have hperm := List.filter_append_perm (fun c => c.any (adj8 p)) comps
  have h2 : ((comps.filter fun c => c.any (adj8 p))
      ++ comps.filter fun c => !(c.any (adj8 p))).flatten.Perm comps.flatten :=
    List.Perm.flatten hperm
  rw [List.flatten_append] at h2
  simpa using h2.cons p

theorem componentsFold_flatten_perm :
    ∀ (pixels : List (Nat × Nat)) (comps : List (List (Nat × Nat))),
      ((pixels.foldl addPixel comps).flatten).Perm (comps.flatten ++ pixels) := by
  intro pixels
  induction pixels with
  | nil => intro comps; simp
  | cons q qs ih =>
    intro comps
    have h1 := ih (addPixel comps q)
    have h2 := (addPixel_flatten_perm comps q).append_right qs
    have h3 : ((q :: comps.flatten) ++ qs).Perm (comps.flatten ++ q :: qs) :=
      List.perm_middle.symm
    simp only [List.foldl_cons]
    exact h1.trans (h2.trans h3)

theorem components_flatten_perm (pixels : List (Nat × Nat)) :
    (components pixels).flatten.Perm pixels := by
  simpa [components] using componentsFold_flatten_perm pixels []

theorem components_nonempty :
    ∀ (pixels : List (Nat × Nat)) (comps : List (List (Nat × Nat))),
      (∀ c ∈ comps, c ≠ []) → ∀ c ∈ pixels.foldl addPixel comps, c ≠ [] := by
  intro pixels
  induction pixels with
  | nil => intro comps h; simpa using h
  | cons q qs ih =>
    intro comps h
    simp only [List.foldl_cons]
    refine ih (addPixel comps q) ?_
    intro c hc
    rw [addPixel] at hc
    rcases List.mem_cons.mp hc with h2 | h2
    · subst h2; simp
    · exact h c ((List.filter_sublist comps).subset h2)

theorem nodup_of_mem_flatten :
    ∀ (L : List (List α)), L.flatten.Nodup → ∀ c ∈ L, c.Nodup := by
  intro L
  induction L with
  | nil => intro _ c hc; cases hc
  | cons a t ih =>
    intro h c hc
    rw [List.flatten_cons, List.nodup_append] at h
    rcases List.mem_cons.mp hc with h2 | h2
    · subst h2; exact h.1
    · exact ih h.2.1 c h2

theorem mem_pixels_of_mem_components (pixels : List (Nat × Nat))
    (c : List (Nat × Nat)) (hc : c ∈ components pixels) (q : Nat × Nat) (hq : q ∈ c) :
    q ∈ pixels := by
  have h1 : q ∈ (components pixels).flatten := List.mem_flatten.mpr ⟨c, hc, hq⟩
  exact (components_flatten_perm pixels).subset h1

theorem components_comp_nodup (pixels : List (Nat × Nat)) (hnod : pixels.Nodup)
    (c : List (Nat × Nat)) (hc : c ∈ components pixels) : c.Nodup := by
  have h1 : (components pixels).flatten.Nodup :=
    ((components_flatten_perm pixels).nodup_iff).mpr hnod
  exact nodup_of_mem_flatten _ h1 c hc

theorem foldl_min_le (f : β → Nat) :
    ∀ (l : List β) (a : Nat),
      (l.foldl (fun x p => min x (f p)) a) ≤ a
      ∧ ∀ p ∈ l, (l.foldl (fun x p => min x (f p)) a) ≤ f p := by
  intro l
  induction l with
  | nil => intro a; exact ⟨le_refl a, fun p hp => absurd hp (List.not_mem_nil p)⟩
  | cons q t ih =>
    intro a
    simp only [List.foldl_cons]
    have h := ih (min a (f q))
    refine ⟨le_trans h.1 (min_le_left _ _), ?_⟩
    intro p hp
    rcases List.mem_cons.mp hp with h2 | h2
    · subst h2; exact le_trans h.1 (min_le_right _ _)
    · exact h.2 p h2

theorem le_foldl_max (f : β → Nat) :
    ∀ (l : List β) (a : Nat),
      a ≤ (l.foldl (fun x p => max x (f p)) a)
      ∧ ∀ p ∈ l, f p ≤ (l.foldl (fun x p => max x (f p)) a) := by
  intro l
  induction l with
  | nil => intro a; exact ⟨le_refl a, fun p hp => absurd hp (List.not_mem_nil p)⟩
  | cons q t ih =>
    intro a
    simp only [List.foldl_cons]
    have h := ih (max a (f q))
    refine ⟨le_trans (le_max_left _ _) h.1, ?_⟩
    intro p hp
    rcases List.mem_cons.mp hp with h2 | h2
    · subst h2; exact le_trans (le_max_right _ _) h.1
    · exact h.2 p h2

theorem foldl_max_lt (f : β → Nat) :
    ∀ (l : List β) (a B : Nat), a < B → (∀ p ∈ l, f p < B) →
      (l.foldl (fun x p => max x (f p)) a) < B := by
  intro l
  induction l with
  | nil => intro a B ha _; simpa using ha
  | cons q t ih =>
    intro a B ha hl
    simp only [List.foldl_cons]
    refine ih (max a (f q)) B ?_ fun p hp => hl p (List.mem_cons_of_mem _ hp)
    have := hl q (List.mem_cons_self _ _)
    omega

theorem length_le_box (comp : List (Nat × Nat)) (hnod : comp.Nodup)
    (r0 r1 c0 c1 : Nat)
    (hb : ∀ p ∈ comp, r0 ≤ p.1 ∧ p.1 ≤ r1 ∧ c0 ≤ p.2 ∧ p.2 ≤ c1) :
    comp.length ≤ (r1 + 1 - r0) * (c1 + 1 - c0) := by
  have hsub : comp.toFinset ⊆ Finset.Icc r0 r1 ×ˢ Finset.Icc c0 c1 := by
    intro x hx
    have hm := List.mem_toFinset.mp hx
    have := hb x hm
    rw [Finset.mem_product, Finset.mem_Icc, Finset.mem_Icc]
    exact ⟨⟨this.1, this.2.1⟩, ⟨this.2.2.1, this.2.2.2⟩⟩
  have hcard := Finset.card_le_card hsub
  rw [Finset.card_product, Nat.card_Icc, Nat.card_Icc,
    List.toFinset_card_of_nodup hnod] at hcard
  exact hcard

theorem compStats_sound (comp : List (Nat × Nat)) (r : Region) (H W : Nat)
    (hnod : comp.Nodup) (hb : ∀ p ∈ comp, p.1 < H ∧ p.2 < W)
    (h : compStats comp = some r) :
    0 < r.w ∧ 0 < r.h ∧ r.x + r.w ≤ W ∧ r.y + r.h ≤ H
    ∧ r.area = comp.length ∧ r.area ≤ r.w * r.h := by
  cases comp with
  | nil => simp [compStats] at h
  | cons q rest =>
    rw [compStats] at h
    have hr := Option.some.inj h
    subst hr
    have hminC := foldl_min_le (fun p => p.2) rest q.2
    have hmaxC := le_foldl_max (fun p => p.2) rest q.2
    have hminR := foldl_min_le (fun p => p.1) rest q.1
    have hmaxR := le_foldl_max (fun p => p.1) rest q.1
    have hq := hb q (List.mem_cons_self _ _)
    have hmaxCW : rest.foldl (fun x p => max x p.2) q.2 < W :=
      foldl_max_lt (fun p => p.2) rest q.2 W hq.2
        fun p hp => (hb p (List.mem_cons_of_mem _ hp)).2
    have hmaxRH : rest.foldl (fun x p => max x p.1) q.1 < H :=
      foldl_max_lt (fun p => p.1) rest q.1 H hq.1
        fun p hp => (hb p (List.mem_cons_of_mem _ hp)).1
    have hcc : rest.foldl (fun x p => min x p.2) q.2
        ≤ rest.foldl (fun x p => max x p.2) q.2 := le_trans hminC.1 hmaxC.1
    have hrr : rest.foldl (fun x p => min x p.1) q.1
        ≤ rest.foldl (fun x p => max x p.1) q.1 := le_trans hminR.1 hmaxR.1
    refine ⟨by simp; omega, by simp; omega, by simp; omega, by simp; omega, by simp, ?_⟩
    have hbox := length_le_box (q :: rest) hnod
      (rest.foldl (fun x p => min x p.1) q.1) (rest.foldl (fun x p => max x p.1) q.1)
      (rest.foldl (fun x p => min x p.2) q.2) (rest.foldl (fun x p => max x p.2) q.2) ?_
    · simp only
      calc (q :: rest).length
          ≤ (rest.foldl (fun x p => max x p.1) q.1 + 1
              - rest.foldl (fun x p => min x p.1) q.1)
            * (rest.foldl (fun x p => max x p.2) q.2 + 1
              - rest.foldl (fun x p => min x p.2) q.2) := hbox
        _ = (rest.foldl (fun x p => max x p.2) q.2 + 1
              - rest.foldl (fun x p => min x p.2) q.2)
            * (rest.foldl (fun x p => max x p.1) q.1 + 1
              - rest.foldl (fun x p => min x p.1) q.1) := Nat.mul_comm _ _
    · intro p hp
      rcases List.mem_cons.mp hp with h2 | h2
      · subst h2
        exact ⟨hminR.1, hmaxR.1, hminC.1, hmaxC.1⟩
      · exact ⟨hminR.2 p h2, hmaxR.2 p h2, hminC.2 p h2, hmaxC.2 p h2⟩

/-- Claim C3: every region returned by `segment_characters` has area in
`[min_area, max_area]`, a bounding box with positive width and height
lying inside the image bounds, and area at most `w * h`. -/
theorem segment_characters_bounds (img : Gray) (W minArea maxArea : Nat)
    (hrect : ∀ row ∈ img, row.length = W) :
    ∀ reg ∈ segment_characters img minArea maxArea,
      minArea ≤ reg.area ∧ reg.area ≤ maxArea ∧ 0 < reg.w ∧ 0 < reg.h
      ∧ reg.x + reg.w ≤ W ∧ reg.y + reg.h ≤ img.length ∧ reg.area ≤ reg.w * reg.h := by
  intro reg hreg
  simp only [segment_characters, List.mem_map] at hreg
  obtain ⟨ip, hip, hipe⟩ := hreg
  have hfil : ip.2 ∈ ((components (foregroundPixels img)).filterMap compStats).filter
      fun reg => decide (minArea ≤ reg.area ∧ reg.area ≤ maxArea) :=
    mem_enumFrom_snd _ 0 ip hip
  have harea := of_decide_eq_true (List.mem_filter.mp hfil).2
  have hmem := (List.mem_filter.mp hfil).1
  rw [List.mem_filterMap] at hmem
  obtain ⟨comp, hcomp, hstats⟩ := hmem
  have hnodp : comp.Nodup :=
    components_comp_nodup (foregroundPixels img) (foregroundPixels_nodup img) comp hcomp
  have hbnd : ∀ p ∈ comp, p.1 < img.length ∧ p.2 < W := by
    intro p hp
    have hpix := mem_pixels_of_mem_components (foregroundPixels img) comp hcomp p hp
    have hm := foregroundPixels_mem img p hpix
    obtain ⟨row, hrow, hlt⟩ := hm.2
    exact ⟨hm.1, by rw [← hrect row hrow]; exact hlt⟩
  have hsound := compStats_sound comp ip.2 img.length W hnodp hbnd hstats
  have hfields : reg.x = ip.2.x ∧ reg.y = ip.2.y ∧ reg.w = ip.2.w ∧ reg.h = ip.2.h
      ∧ reg.area = ip.2.area := by
    subst hipe
    exact ⟨rfl, rfl, rfl, rfl, rfl⟩
  obtain ⟨hx, hy, hw, hh, ha⟩ := hfields
  rw [hx, hy, hw, hh, ha]
  exact ⟨harea.1, harea.2, hsound.1, hsound.2.1, hsound.2.2.1, hsound.2.2.2.1,
    hsound.2.2.2.2.2⟩

/-- Claim C3, witness: the single-pixel image yields one region of area
1 meeting all the bounds. -/
theorem segment_characters_bounds_witness :
    1 ≤ ({ id := 0, x := 0, y := 0, w := 1, h := 1, area := 1 } : Region).area
    ∧ ({ id := 0, x := 0, y := 0, w := 1, h := 1, area := 1 } : Region).area ≤ 10
    ∧ 0 < ({ id := 0, x := 0, y := 0, w := 1, h := 1, area := 1 } : Region).w
    ∧ 0 < ({ id := 0, x := 0, y := 0, w := 1, h := 1, area := 1 } : Region).h
    ∧ ({ id := 0, x := 0, y := 0, w := 1, h := 1, area := 1 } : Region).x
        + ({ id := 0, x := 0, y := 0, w := 1, h := 1, area := 1 } : Region).w ≤ 1
    ∧ ({ id := 0, x := 0, y := 0, w := 1, h := 1, area := 1 } : Region).y
        + ({ id := 0, x := 0, y := 0, w := 1, h := 1, area := 1 } : Region).h
        ≤ ([[0]] : Gray).length
    ∧ ({ id := 0, x := 0, y := 0, w := 1, h := 1, area := 1 } : Region).area
        ≤ ({ id := 0, x := 0, y := 0, w := 1, h := 1, area := 1 } : Region).w
          * ({ id := 0, x := 0, y := 0, w := 1, h := 1, area := 1 } : Region).h :=
  segment_characters_bounds [[0]] 1 1 10 (by decide)
    { id := 0, x := 0, y := 0, w := 1, h := 1, area := 1 } (by decide)

end Ocr
